import Mathlib

/-!
Verification of the statfeed selection engine (src/src/lib.rs).

The Rust code computes over `f64`. We model `f64` values as exact rationals
extended with the IEEE special values `+inf`, `-inf` and `NaN` (type `F64`
below); rounding of finite arithmetic is ignored (every concrete value in the
repository's tests is an exact small rational, and the spec states its
numeric expectations with a 1e-10 tolerance that exact rational arithmetic
trivially meets). The IEEE rules for the special values that the code can
actually produce (division by zero, arithmetic with infinities, `partial_cmp`
returning `None` on NaN) are modelled exactly.

Finite values are carried by `Frac`, a gcd-normalized fraction of an `Int`
numerator over a `Nat` denominator. `Frac.toRat` interprets a fraction in
`ℚ`; every fraction produced by the operations below from well-formed inputs
has a positive denominator, and on such fractions the operations agree with
the `ℚ` operations (lemmas `Frac.toRat_add` etc. below).
-/

/-- A fraction: `Int` numerator over `Nat` denominator. All fractions built
by the operations below are gcd-normalized with positive denominator, so
structural equality coincides with equality of values. -/
structure Frac where
  num : Int
  den : Nat
deriving DecidableEq, Repr

namespace Frac

/-- Reduce `n / d` to lowest terms (`d = 0` never arises from the
operations below on well-formed inputs). -/
def normalize (n : Int) (d : Nat) : Frac :=
  if d = 0 then ⟨0, 0⟩
  else
    let g := n.natAbs.gcd d
    ⟨(n.sign * (n.natAbs / g : Nat) : Int), d / g⟩

/-- The fraction `n / 1`. -/
def ofInt (n : Int) : Frac := ⟨n, 1⟩

/-- The fraction `n / d` for an integer literal pair, in lowest terms. -/
def ofInts (n d : Int) : Frac :=
  if 0 ≤ d then normalize n d.natAbs else normalize (-n) d.natAbs

def add (a b : Frac) : Frac :=
  normalize (a.num * (b.den : Int) + b.num * (a.den : Int)) (a.den * b.den)

def sub (a b : Frac) : Frac :=
  normalize (a.num * (b.den : Int) - b.num * (a.den : Int)) (a.den * b.den)

def mul (a b : Frac) : Frac :=
  normalize (a.num * b.num) (a.den * b.den)

/-- Division; callers guarantee `b.num ≠ 0`. -/
def div (a b : Frac) : Frac :=
  if 0 ≤ b.num then normalize (a.num * (b.den : Int)) (a.den * b.num.natAbs)
  else normalize (-(a.num * (b.den : Int))) (a.den * b.num.natAbs)

/-- Strict comparison by cross-multiplication (valid when denominators are
positive, which the operations maintain). -/
def blt (a b : Frac) : Bool :=
  a.num * (b.den : Int) < b.num * (a.den : Int)

/-- The rational value of a fraction. -/
def toRat (a : Frac) : ℚ := (a.num : ℚ) / (a.den : ℚ)

end Frac

/-- Model of an `f64` value: a finite rational, an infinity, or NaN.
Signed zero is not modelled (a finite 0 behaves as IEEE +0.0). -/
inductive F64 where
  | nan : F64
  | neginf : F64
  | fin (q : Frac) : F64
  | posinf : F64
deriving DecidableEq, Repr

namespace F64

/-- IEEE addition on the model. -/
def add : F64 → F64 → F64
  | .nan, _ => .nan
  | _, .nan => .nan
  | .posinf, .neginf => .nan
  | .neginf, .posinf => .nan
  | .posinf, _ => .posinf
  | _, .posinf => .posinf
  | .neginf, _ => .neginf
  | _, .neginf => .neginf
  | .fin a, .fin b => .fin (a.add b)

/-- IEEE subtraction on the model. -/
def sub : F64 → F64 → F64
  | .nan, _ => .nan
  | _, .nan => .nan
  | .posinf, .posinf => .nan
  | .neginf, .neginf => .nan
  | .posinf, _ => .posinf
  | _, .posinf => .neginf
  | .neginf, _ => .neginf
  | _, .neginf => .posinf
  | .fin a, .fin b => .fin (a.sub b)

/-- IEEE multiplication on the model (`0 * inf = NaN`). -/
def mul : F64 → F64 → F64
  | .nan, _ => .nan
  | _, .nan => .nan
  | .posinf, .posinf => .posinf
  | .posinf, .neginf => .neginf
  | .neginf, .posinf => .neginf
  | .neginf, .neginf => .posinf
  | .posinf, .fin b => if 0 < b.num then .posinf else if b.num < 0 then .neginf else .nan
  | .fin a, .posinf => if 0 < a.num then .posinf else if a.num < 0 then .neginf else .nan
  | .neginf, .fin b => if 0 < b.num then .neginf else if b.num < 0 then .posinf else .nan
  | .fin a, .neginf => if 0 < a.num then .neginf else if a.num < 0 then .posinf else .nan
  | .fin a, .fin b => .fin (a.mul b)

/-- IEEE division on the model: `q/0` is a signed infinity for `q ≠ 0` and NaN
for `q = 0` (the finite zero acts as IEEE +0.0), `inf/inf = NaN`, `q/inf = 0`. -/
def div : F64 → F64 → F64
  | .nan, _ => .nan
  | _, .nan => .nan
  | .posinf, .posinf => .nan
  | .posinf, .neginf => .nan
  | .neginf, .posinf => .nan
  | .neginf, .neginf => .nan
  | .posinf, .fin b => if b.num < 0 then .neginf else .posinf
  | .neginf, .fin b => if b.num < 0 then .posinf else .neginf
  | .fin _, .posinf => .fin (Frac.ofInt 0)
  | .fin _, .neginf => .fin (Frac.ofInt 0)
  | .fin a, .fin b =>
    if b.num = 0 then (if 0 < a.num then .posinf else if a.num < 0 then .neginf else .nan)
    else .fin (a.div b)

instance : Add F64 := ⟨F64.add⟩
instance : Sub F64 := ⟨F64.sub⟩
instance : Mul F64 := ⟨F64.mul⟩
instance : Div F64 := ⟨F64.div⟩

/-- IEEE strict less-than (false whenever an operand is NaN); used for the
Rust comparison `> 0.0`. -/
def flt : F64 → F64 → Bool
  | .fin a, .fin b => a.blt b
  | .neginf, .fin _ => true
  | .neginf, .posinf => true
  | .fin _, .posinf => true
  | _, _ => false

/-- Model of `f64::partial_cmp`: `none` whenever an operand is NaN. -/
def pcmp : F64 → F64 → Option Ordering
  | .nan, _ => none
  | _, .nan => none
  | .neginf, .neginf => some .eq
  | .neginf, _ => some .lt
  | _, .neginf => some .gt
  | .posinf, .posinf => some .eq
  | _, .posinf => some .lt
  | .posinf, _ => some .gt
  | .fin a, .fin b => some (if a.blt b then .lt else if b.blt a then .gt else .eq)

/-- The comparator the Rust code hands to `sort_by`:
`v.partial_cmp(v2).unwrap_or(Ordering::Equal)`. -/
def fcmp (a b : F64) : Ordering := (pcmp a b).getD .eq

/-- Whether a value is finite. -/
def isFin : F64 → Bool
  | .fin _ => true
  | _ => false

/-- Whether a value is finite or `+inf` (neither NaN nor `-inf`). -/
def finOrPosinf : F64 → Bool
  | .fin _ => true
  | .posinf => true
  | _ => false

end F64

/-- Stable insertion of a (candidate, value) pair into a list already sorted
by value under `F64.fcmp`: the new pair goes before the first entry it does
not compare greater than. -/
def insertPair {T : Type} (x : T × F64) : List (T × F64) → List (T × F64)
  | [] => [x]
  | y :: ys => if F64.fcmp x.2 y.2 ≠ Ordering.gt then x :: y :: ys else y :: insertPair x ys

/-- Model of `Vec::sort_by` with the comparator of `sort_options`: a stable
sort by the `F64` value. Rust's `sort_by` is a stable sort; for a comparator
that is a total preorder every stable sort produces the same list, and this
insertion-sort formulation is chosen for ease of reasoning. -/
def sortPairs {T : Type} : List (T × F64) → List (T × F64)
  | [] => []
  | x :: xs => insertPair x (sortPairs xs)

/-- Model of `Iterator::position`: index of the first element satisfying the
predicate. -/
def position {T : Type} (p : T → Bool) : List T → Option Nat
  | [] => none
  | x :: xs => if p x then some 0 else (position p xs).map (· + 1)

/-- The `Statfeed<T>` struct. `Vec<f64>` becomes `List F64`. Out-of-range
indexing (which panics in Rust) is modelled with `List.getD` defaults; all
states considered by the theorems keep every index in range. -/
structure Statfeed (T : Type) where
  randoms : List (List F64)
  weights : List (List F64)
  choices : List T
  heterogeneities : List F64
  accents : List F64
  statistics : List F64
  decisions : List Nat
  options : List T
deriving DecidableEq, Repr

namespace Statfeed

variable {T : Type}

/-- `Statfeed::new`. The default randomness matrix is drawn from the ambient
`rand::random::<f64>()` source in Rust; the model takes the drawn matrix as
an explicit argument (dependency-injected random source), everything else is
computed exactly as in the source. -/
def new (options : List T) (size : Nat) (randoms : List (List F64)) : Statfeed T :=
  let weights : List (List F64) := (List.range size).map (fun _ =>
    (List.range options.length).map (fun _ =>
      F64.fin (Frac.ofInt 1) / F64.fin (Frac.ofInt (options.length : Int))))
  let heterogeneities := List.replicate size (F64.fin (Frac.ofInts 1 10))
  let accents := List.replicate size (F64.fin (Frac.ofInt 1))
  let statistics := List.replicate options.length (F64.fin (Frac.ofInt 0))
  let choices : List T := []
  let decisions := List.range size
  { weights := weights, randoms := randoms, heterogeneities := heterogeneities,
    accents := accents, statistics := statistics, choices := choices,
    decisions := decisions, options := options }

/-- `is_acceptable`: the built-in acceptability predicate accepts everything. -/
def is_acceptable (_sf : Statfeed T) (_el : T) (_idx : Nat) : Bool := true

/-- `true_increment`: `accents[decision] / weights[decision][option]`. -/
def true_increment (sf : Statfeed T) (decision opt : Nat) : F64 :=
  sf.accents.getD decision F64.nan / (sf.weights.getD decision []).getD opt F64.nan

/-- `expected_increment`:
`(accents[d] + heterogeneities[d] * randoms[d][o]) / weights[d][o]`. -/
def expected_increment (sf : Statfeed T) (decision opt : Nat) : F64 :=
  (sf.accents.getD decision F64.nan +
    sf.heterogeneities.getD decision F64.nan * (sf.randoms.getD decision []).getD opt F64.nan)
  / (sf.weights.getD decision []).getD opt F64.nan

/-- `normalization_value`: `accents[idx] / weights[idx].iter().fold(0., |a, v| a + v)`
(the argument is a decision index). -/
def normalization_value (sf : Statfeed T) (idx : Nat) : F64 :=
  sf.accents.getD idx F64.nan /
    (sf.weights.getD idx []).foldl (fun a v => a + v) (F64.fin (Frac.ofInt 0))

/-- `scheduling_values`: for each option `m`,
`statistics[m] + expected_increment(decision, m)`. -/
def scheduling_values (sf : Statfeed T) (decision : Nat) : List F64 :=
  (List.range sf.options.length).map (fun m =>
    sf.statistics.getD m F64.nan + sf.expected_increment decision m)

/-- `sort_options`: zip the options with the given values and stably sort by
value using `partial_cmp(..).unwrap_or(Equal)`. -/
def sort_options (sf : Statfeed T) (vals : List F64) : List T :=
  (sortPairs (sf.options.zip vals)).map Prod.fst

/-- `increment_statistics`: `statistics[idx] += true_increment(dec, idx)`. -/
def increment_statistics (sf : Statfeed T) (dec idx : Nat) : Statfeed T :=
  { sf with statistics :=
      sf.statistics.set idx (sf.statistics.getD idx F64.nan + sf.true_increment dec idx) }

/-- `normalize_statistics`: for each `idx` below `statistics.len()`, subtract
`normalization_value(dec)` when `weights[dec][idx] > 0.0`. -/
def normalize_statistics (sf : Statfeed T) (dec : Nat) : Statfeed T :=
  { sf with statistics :=
      (List.range sf.statistics.length).map (fun idx =>
        if F64.flt (F64.fin (Frac.ofInt 0)) ((sf.weights.getD dec []).getD idx F64.nan)
        then sf.statistics.getD idx F64.nan - sf.normalization_value dec
        else sf.statistics.getD idx F64.nan) }

/-- One iteration of the loop body of `populate_choices` for decision `dec`:
sort the options by scheduling value, take the first acceptable one together
with its index in the sorted list, push it, then increment and normalize.
`none` models the `unwrap()` panic when no option is acceptable. -/
def step (sf : Statfeed T) (dec : Nat) : Option (Statfeed T) :=
  let sorted := sf.sort_options (sf.scheduling_values dec)
  match position (fun el => sf.is_acceptable el dec) sorted with
  | none => none
  | some index =>
    match sorted.get? index with
    | none => none
    | some choice =>
      some ((({ sf with choices := sf.choices ++ [choice] }).increment_statistics
        dec index).normalize_statistics dec)

/-- The loop of `populate_choices` over a list of decision indices. -/
def run_decisions : Statfeed T → List Nat → Option (Statfeed T)
  | sf, [] => some sf
  | sf, d :: ds =>
    match sf.step d with
    | none => none
    | some sf2 => run_decisions sf2 ds

/-- `populate_choices`: clear `choices`, then run every decision
`0..decisions.len()` in order. -/
def populate_choices (sf : Statfeed T) : Option (Statfeed T) :=
  run_decisions { sf with choices := [] } (List.range sf.decisions.length)

end Statfeed

/-- The randomness matrix the repository's test `setup()` writes into the
engine after construction. -/
def testRandoms : List (List F64) :=
  [[F64.fin (Frac.ofInts 1 10), F64.fin (Frac.ofInts 2 10), F64.fin (Frac.ofInts 3 10)],
   [F64.fin (Frac.ofInts 4 10), F64.fin (Frac.ofInts 5 10), F64.fin (Frac.ofInts 6 10)],
   [F64.fin (Frac.ofInts 7 10), F64.fin (Frac.ofInts 8 10), F64.fin (Frac.ofInts 9 10)]]

/-- The engine of the repository's test `setup()`: `Statfeed::new(vec!['a','b','c'], 3)`
with `randoms` overwritten by `testRandoms` (modelled by injecting the matrix
directly at construction). -/
def testSF : Statfeed Char := Statfeed.new ['a', 'b', 'c'] 3 testRandoms


/-! ## List helpers -/

theorem rangeMap_get? {α : Type} (f : Nat → α) {n i : Nat} (h : i < n) :
    ((List.range n).map f).get? i = some (f i) := by
  simp [List.get?_eq_getElem?, List.getElem?_map, List.getElem?_range h]

theorem rangeMap_getD {α : Type} (f : Nat → α) {n i : Nat} (h : i < n) (x : α) :
    ((List.range n).map f).getD i x = f i := by
  simp [List.getD, List.getElem?_map, List.getElem?_range h]

/-! ## Correctness of the fraction arithmetic with respect to `ℚ` -/

theorem Frac.den_normalize_nz (n : Int) (d : Nat) (hd : d ≠ 0) :
    (Frac.normalize n d).den ≠ 0 := by
  unfold normalize
  rw [if_neg hd]
  have hgd : n.natAbs.gcd d ∣ d := Nat.gcd_dvd_right _ _
  have hgnz : n.natAbs.gcd d ≠ 0 := fun h => hd (Nat.eq_zero_of_gcd_eq_zero_right h)
  have hle : n.natAbs.gcd d ≤ d := Nat.le_of_dvd (Nat.pos_of_ne_zero hd) hgd
  exact Nat.pos_iff_ne_zero.mp (Nat.div_pos hle (Nat.pos_of_ne_zero hgnz))

theorem Frac.toRat_normalize (n : Int) (d : Nat) (hd : d ≠ 0) :
    (Frac.normalize n d).toRat = (n : ℚ) / (d : ℚ) := by
  unfold normalize toRat
  rw [if_neg hd]
  simp only
  set g := n.natAbs.gcd d with hg
  have hgd : g ∣ d := Nat.gcd_dvd_right _ _
  have hgn : g ∣ n.natAbs := Nat.gcd_dvd_left _ _
  have hgnz : g ≠ 0 := fun h => hd (Nat.eq_zero_of_gcd_eq_zero_right (hg ▸ h))
  obtain ⟨a, ha⟩ := hgn
  obtain ⟨b, hb⟩ := hgd
  have hb0 : b ≠ 0 := by
    rintro rfl
    exact hd (by simpa using hb)
  have h1 : n.natAbs / g = a := by
    rw [ha]
    exact Nat.mul_div_cancel_left a (Nat.pos_of_ne_zero hgnz)
  have h2 : d / g = b := by
    rw [hb]
    exact Nat.mul_div_cancel_left b (Nat.pos_of_ne_zero hgnz)
  rw [h1, h2]
  have hsign : ((n.sign : ℚ)) * ((n.natAbs : ℚ)) = (n : ℚ) := by
    rw [Int.cast_natAbs]
    exact_mod_cast congrArg (fun z : Int => (z : ℚ)) (Int.sign_mul_abs n)
  have hnq : (n : ℚ) = (n.sign : ℚ) * ((g : ℚ) * (a : ℚ)) := by
    rw [← hsign, ha]
    push_cast
    ring
  rw [hb, hnq]
  have hgq : ((g : ℚ)) ≠ 0 := by exact_mod_cast hgnz
  have hbq : ((b : ℚ)) ≠ 0 := by exact_mod_cast hb0
  push_cast
  field_simp
  ring

theorem Frac.den_add_nz (a b : Frac) (ha : a.den ≠ 0) (hb : b.den ≠ 0) :
    (a.add b).den ≠ 0 :=
  Frac.den_normalize_nz _ _ (Nat.mul_ne_zero ha hb)

theorem Frac.den_sub_nz (a b : Frac) (ha : a.den ≠ 0) (hb : b.den ≠ 0) :
    (a.sub b).den ≠ 0 :=
  Frac.den_normalize_nz _ _ (Nat.mul_ne_zero ha hb)

theorem Frac.den_mul_nz (a b : Frac) (ha : a.den ≠ 0) (hb : b.den ≠ 0) :
    (a.mul b).den ≠ 0 :=
  Frac.den_normalize_nz _ _ (Nat.mul_ne_zero ha hb)

theorem Frac.den_div_nz (a b : Frac) (ha : a.den ≠ 0) (hb : b.num ≠ 0) :
    (a.div b).den ≠ 0 := by
  unfold div
  have hnz : a.den * b.num.natAbs ≠ 0 :=
    Nat.mul_ne_zero ha (Int.natAbs_ne_zero.mpr hb)
  by_cases h : 0 ≤ b.num
  · rw [if_pos h]; exact Frac.den_normalize_nz _ _ hnz
  · rw [if_neg h]; exact Frac.den_normalize_nz _ _ hnz

theorem Frac.toRat_add (a b : Frac) (ha : a.den ≠ 0) (hb : b.den ≠ 0) :
    (a.add b).toRat = a.toRat + b.toRat := by
  unfold add
  rw [Frac.toRat_normalize _ _ (Nat.mul_ne_zero ha hb)]
  unfold toRat
  have haq : ((a.den : ℚ)) ≠ 0 := by exact_mod_cast ha
  have hbq : ((b.den : ℚ)) ≠ 0 := by exact_mod_cast hb
  push_cast
  field_simp
  try ring

theorem Frac.toRat_sub (a b : Frac) (ha : a.den ≠ 0) (hb : b.den ≠ 0) :
    (a.sub b).toRat = a.toRat - b.toRat := by
  unfold sub
  rw [Frac.toRat_normalize _ _ (Nat.mul_ne_zero ha hb)]
  unfold toRat
  have haq : ((a.den : ℚ)) ≠ 0 := by exact_mod_cast ha
  have hbq : ((b.den : ℚ)) ≠ 0 := by exact_mod_cast hb
  push_cast
  field_simp
  try ring

theorem Frac.toRat_mul (a b : Frac) (ha : a.den ≠ 0) (hb : b.den ≠ 0) :
    (a.mul b).toRat = a.toRat * b.toRat := by
  unfold mul
  rw [Frac.toRat_normalize _ _ (Nat.mul_ne_zero ha hb)]
  unfold toRat
  have haq : ((a.den : ℚ)) ≠ 0 := by exact_mod_cast ha
  have hbq : ((b.den : ℚ)) ≠ 0 := by exact_mod_cast hb
  push_cast
  field_simp
  try ring

theorem Frac.toRat_div (a b : Frac) (ha : a.den ≠ 0) (hb : b.num ≠ 0) :
    (a.div b).toRat = a.toRat / b.toRat := by
  unfold div
  have hnz : a.den * b.num.natAbs ≠ 0 :=
    Nat.mul_ne_zero ha (Int.natAbs_ne_zero.mpr hb)
  have haq : ((a.den : ℚ)) ≠ 0 := by exact_mod_cast ha
  have hbq : ((b.num : ℚ)) ≠ 0 := by exact_mod_cast hb
  by_cases h : 0 ≤ b.num
  · rw [if_pos h, Frac.toRat_normalize _ _ hnz]
    unfold toRat
    have habs : ((b.num.natAbs : ℚ)) = (b.num : ℚ) := by
      rw [Int.cast_natAbs]
      exact_mod_cast congrArg (fun z : Int => (z : ℚ)) (abs_of_nonneg h)
    push_cast [habs]
    field_simp
    try ring
  · rw [if_neg h, Frac.toRat_normalize _ _ hnz]
    unfold toRat
    have habs : ((b.num.natAbs : ℚ)) = -(b.num : ℚ) := by
      rw [Int.cast_natAbs]
      exact_mod_cast congrArg (fun z : Int => (z : ℚ)) (abs_of_neg (Int.lt_of_not_ge h))
    push_cast [habs]
    field_simp
    try ring

theorem Frac.blt_iff (a b : Frac) (ha : a.den ≠ 0) (hb : b.den ≠ 0) :
    (a.blt b = true ↔ a.toRat < b.toRat) := by
  unfold blt toRat
  have haq : (0:ℚ) < (a.den : ℚ) := by exact_mod_cast Nat.pos_of_ne_zero ha
  have hbq : (0:ℚ) < (b.den : ℚ) := by exact_mod_cast Nat.pos_of_ne_zero hb
  rw [div_lt_div_iff₀ haq hbq, decide_eq_true_eq]
  exact_mod_cast Iff.rfl

theorem Frac.num_pos_iff (a : Frac) (ha : a.den ≠ 0) : 0 < a.num ↔ 0 < a.toRat := by
  unfold toRat
  have haq : (0:ℚ) < (a.den : ℚ) := by exact_mod_cast Nat.pos_of_ne_zero ha
  rw [lt_div_iff₀ haq, zero_mul]
  exact ⟨fun h2 => by exact_mod_cast h2, fun h2 => by exact_mod_cast h2⟩

/-! ## Sorting lemmas -/

theorem length_insertPair {T : Type} (x : T × F64) (l : List (T × F64)) :
    (insertPair x l).length = l.length + 1 := by
  induction l with
  | nil => rfl
  | cons y ys ih =>
    unfold insertPair
    by_cases h : F64.fcmp x.2 y.2 ≠ Ordering.gt
    · rw [if_pos h]
      rfl
    · rw [if_neg h]
      simp [ih]

theorem length_sortPairs {T : Type} (l : List (T × F64)) :
    (sortPairs l).length = l.length := by
  induction l with
  | nil => rfl
  | cons x xs ih =>
    unfold sortPairs
    rw [length_insertPair, ih]
    rfl

theorem mem_insertPair {T : Type} {z x : T × F64} {l : List (T × F64)}
    (h : z ∈ insertPair x l) : z = x ∨ z ∈ l := by
  induction l with
  | nil => simpa [insertPair] using h
  | cons y ys ih =>
    unfold insertPair at h
    by_cases hc : F64.fcmp x.2 y.2 ≠ Ordering.gt
    · rw [if_pos hc] at h
      exact List.mem_cons.mp h
    · rw [if_neg hc] at h
      rcases List.mem_cons.mp h with h1 | h2
      · exact Or.inr (List.mem_cons.mpr (Or.inl h1))
      · rcases ih h2 with h3 | h4
        · exact Or.inl h3
        · exact Or.inr (List.mem_cons.mpr (Or.inr h4))

theorem mem_sortPairs {T : Type} {z : T × F64} {l : List (T × F64)}
    (h : z ∈ sortPairs l) : z ∈ l := by
  induction l with
  | nil => simp [sortPairs] at h
  | cons x xs ih =>
    unfold sortPairs at h
    rcases mem_insertPair h with h1 | h2
    · rw [h1]
      exact List.mem_cons_self _ _
    · exact List.mem_cons.mpr (Or.inr (ih h2))

theorem sortPairs_head_isFin {T : Type} :
    ∀ (l : List (T × F64)) (p : T × F64) (rest : List (T × F64)),
      (∀ z ∈ l, F64.finOrPosinf z.2 = true) →
      (∃ z ∈ l, F64.isFin z.2 = true) →
      sortPairs l = p :: rest → F64.isFin p.2 = true := by
  intro l
  induction l with
  | nil =>
    intro p rest _ hex _
    simp at hex
  | cons x xs ih =>
    intro p rest hall hex hs
    unfold sortPairs at hs
    cases hsx : sortPairs xs with
    | nil =>
      rw [hsx] at hs
      unfold insertPair at hs
      have hp : p = x := by
        have := (List.cons.injEq _ _ _ _).mp hs.symm
        exact this.1
      have hxs : xs = [] := by
        have hlen := length_sortPairs xs
        rw [hsx] at hlen
        exact List.eq_nil_of_length_eq_zero hlen.symm
      subst hxs
      rcases hex with ⟨z, hz, hfin⟩
      have hzx : z = x := by simpa using hz
      rw [hp, ← hzx]
      exact hfin
    | cons y ys =>
      rw [hsx] at hs
      unfold insertPair at hs
      by_cases hc : F64.fcmp x.2 y.2 ≠ Ordering.gt
      · rw [if_pos hc] at hs
        have hp : p = x := ((List.cons.injEq _ _ _ _).mp hs.symm).1
        rw [hp]
        have hx : F64.finOrPosinf x.2 = true := hall x (List.mem_cons_self _ _)
        cases hxv : x.2 with
        | fin q => rfl
        | posinf =>
          rcases hex with ⟨z, hz, hfin⟩
          rcases List.mem_cons.mp hz with hz1 | hz2
          · rw [hz1, hxv] at hfin
            simp [F64.isFin] at hfin
          · have hyfin : F64.isFin y.2 = true :=
              ih y ys (fun w hw => hall w (List.mem_cons.mpr (Or.inr hw))) ⟨z, hz2, hfin⟩ hsx
            cases hyv : y.2 with
            | fin q2 =>
              rw [hxv, hyv] at hc
              exact absurd rfl hc
            | posinf => rw [hyv] at hyfin; simp [F64.isFin] at hyfin
            | nan => rw [hyv] at hyfin; simp [F64.isFin] at hyfin
            | neginf => rw [hyv] at hyfin; simp [F64.isFin] at hyfin
        | nan => rw [hxv] at hx; simp [F64.finOrPosinf] at hx
        | neginf => rw [hxv] at hx; simp [F64.finOrPosinf] at hx
      · rw [if_neg hc] at hs
        have hp : p = y := ((List.cons.injEq _ _ _ _).mp hs.symm).1
        rw [hp]
        have hgt : F64.fcmp x.2 y.2 = Ordering.gt := not_ne_iff.mp hc
        have hy_xs : y ∈ xs := mem_sortPairs (hsx ▸ List.mem_cons_self y ys)
        have hy : F64.finOrPosinf y.2 = true := hall y (List.mem_cons.mpr (Or.inr hy_xs))
        have hx : F64.finOrPosinf x.2 = true := hall x (List.mem_cons_self _ _)
        cases hyv : y.2 with
        | fin q2 => rfl
        | posinf =>
          cases hxv : x.2 with
          | fin q =>
            rw [hxv, hyv] at hgt
            simp [F64.fcmp, F64.pcmp] at hgt
          | posinf =>
            rw [hxv, hyv] at hgt
            simp [F64.fcmp, F64.pcmp] at hgt
          | nan => rw [hxv] at hx; simp [F64.finOrPosinf] at hx
          | neginf => rw [hxv] at hx; simp [F64.finOrPosinf] at hx
        | nan => rw [hyv] at hy; simp [F64.finOrPosinf] at hy
        | neginf => rw [hyv] at hy; simp [F64.finOrPosinf] at hy

/-! ## Zip lemmas -/

theorem zip_mem_of_get? {T : Type} {l1 : List T} {l2 : List F64} {i : Nat} {a : T} {b : F64}
    (h1 : l1.get? i = some a) (h2 : l2.get? i = some b) : (a, b) ∈ l1.zip l2 := by
  induction l1 generalizing l2 i with
  | nil => simp at h1
  | cons x xs ih =>
    cases l2 with
    | nil => simp at h2
    | cons y ys =>
      cases i with
      | zero =>
        have hx : x = a := by simpa using h1
        have hy : y = b := by simpa using h2
        rw [← hx, ← hy]
        exact List.mem_cons_self _ _
      | succ j =>
        have h1' : xs.get? j = some a := by simpa using h1
        have h2' : ys.get? j = some b := by simpa using h2
        exact List.mem_cons.mpr (Or.inr (ih h1' h2'))

theorem zip_nodup_snd {T : Type} {l1 : List T} {l2 : List F64} {t : T} {v w : F64} {o : Nat}
    (hnd : l1.Nodup) (hmem : (t, v) ∈ l1.zip l2) (ht : l1.get? o = some t)
    (hw : l2.get? o = some w) : v = w := by
  induction l1 generalizing l2 o with
  | nil => simp at ht
  | cons x xs ih =>
    cases l2 with
    | nil => simp at hmem
    | cons y ys =>
      have hmem' : (t, v) = (x, y) ∨ (t, v) ∈ xs.zip ys := by
        simpa using List.mem_cons.mp hmem
      have hxnotin : x ∉ xs := (List.nodup_cons.mp hnd).1
      have hnd' : xs.Nodup := (List.nodup_cons.mp hnd).2
      cases o with
      | zero =>
        have hx : x = t := by simpa using ht
        have hy : y = w := by simpa using hw
        rcases hmem' with h1 | h2
        · have : t = x ∧ v = y := by simpa using h1
          rw [this.2, hy]
        · have htxs : t ∈ xs := (List.of_mem_zip h2).1
          exact absurd (hx ▸ htxs) hxnotin
      | succ j =>
        have ht' : xs.get? j = some t := by simpa using ht
        have hw' : ys.get? j = some w := by simpa using hw
        rcases hmem' with h1 | h2
        · have h1' : t = x := by
            have : t = x ∧ v = y := by simpa using h1
            exact this.1
          have : t ∈ xs := List.get?_mem ht'
          exact absurd (h1' ▸ this) hxnotin
        · exact ih hnd' h2 ht' hw'

/-! ## Structural lemmas about the engine -/

theorem Statfeed.scheduling_values_length {T : Type} (sf : Statfeed T) (d : Nat) :
    (sf.scheduling_values d).length = sf.options.length := by
  simp [Statfeed.scheduling_values]

theorem Statfeed.scheduling_values_get? {T : Type} (sf : Statfeed T) {d o : Nat}
    (h : o < sf.options.length) :
    (sf.scheduling_values d).get? o =
      some (sf.statistics.getD o F64.nan + sf.expected_increment d o) :=
  rangeMap_get? _ h

/-- The loop body when the sorted candidate list is nonempty: the first
acceptable position is `0` (the predicate accepts everything), the pushed
choice is the head of the sorted list, and the statistics increment is
applied at index `0`. -/
theorem Statfeed.step_sorted_cons {T : Type} (sf : Statfeed T) (dec : Nat) (p : T × F64)
    (rest : List (T × F64))
    (hs : sortPairs (sf.options.zip (sf.scheduling_values dec)) = p :: rest) :
    sf.step dec = some ((({ sf with choices := sf.choices ++ [p.1] }).increment_statistics
      dec 0).normalize_statistics dec) := by
  unfold step sort_options
  rw [hs]
  simp [position, Statfeed.is_acceptable]

theorem Statfeed.step_choices_length {T : Type} (sf : Statfeed T) (dec : Nat) (sf2 : Statfeed T)
    (h : sf.step dec = some sf2) : sf2.choices.length = sf.choices.length + 1 := by
  cases hsort : sortPairs (sf.options.zip (sf.scheduling_values dec)) with
  | nil =>
    unfold Statfeed.step Statfeed.sort_options at h
    rw [hsort] at h
    simp [position] at h
  | cons p rest =>
    rw [Statfeed.step_sorted_cons sf dec p rest hsort] at h
    have h2 : sf2 = (({ sf with choices := sf.choices ++ [p.1] }).increment_statistics
        dec 0).normalize_statistics dec := (Option.some.injEq _ _).mp h.symm
    rw [h2]
    simp [Statfeed.increment_statistics, Statfeed.normalize_statistics]

theorem Statfeed.run_decisions_choices_length {T : Type} :
    ∀ (ds : List Nat) (sf sf2 : Statfeed T),
      Statfeed.run_decisions sf ds = some sf2 →
      sf2.choices.length = sf.choices.length + ds.length := by
  intro ds
  induction ds with
  | nil =>
    intro sf sf2 h
    unfold Statfeed.run_decisions at h
    have : sf = sf2 := (Option.some.injEq _ _).mp h
    rw [← this]
    rfl
  | cons d ds ih =>
    intro sf sf2 h
    unfold Statfeed.run_decisions at h
    cases hstep : sf.step d with
    | none => rw [hstep] at h; simp at h
    | some sf1 =>
      rw [hstep] at h
      have hlen := Statfeed.step_choices_length sf d sf1 hstep
      have hrest := ih sf1 sf2 h
      rw [hrest, hlen]
      simp
      omega

theorem Statfeed.step_none_of_options_nil {T : Type} (sf : Statfeed T) (dec : Nat)
    (h : sf.options = []) : sf.step dec = none := by
  unfold Statfeed.step Statfeed.sort_options
  rw [h]
  simp [sortPairs, position]

/-! ## Concrete run states used by several claims -/

/-- The state of the concrete test run after decision 0 (an intermediate
state of `populate_choices` on `testSF`). -/
def c1AfterDec0 : Option (Statfeed Char) := Statfeed.step { testSF with choices := [] } 0

/-- The state after decision 0, unwrapped. -/
def c1s1 : Statfeed Char := c1AfterDec0.getD testSF

/-- The state of the concrete test run after decisions 0 and 1. -/
def c1AfterDec1 : Option (Statfeed Char) := c1AfterDec0.bind (fun s => s.step 1)

/-! ## Claims -/

/-- C3: on the concrete configuration of the repository's test (options
`['a','b','c']`, `M = 3`, uniform `1/3` weights, accents `[1,1,1]`,
heterogeneities `[0.1,0.1,0.1]`, the given randoms, zero statistics),
`populate_choices` produces `choices == ['a','b','b']`. -/
theorem c3_concrete_run :
    testSF.weights =
      [[F64.fin (Frac.ofInts 1 3), F64.fin (Frac.ofInts 1 3), F64.fin (Frac.ofInts 1 3)],
       [F64.fin (Frac.ofInts 1 3), F64.fin (Frac.ofInts 1 3), F64.fin (Frac.ofInts 1 3)],
       [F64.fin (Frac.ofInts 1 3), F64.fin (Frac.ofInts 1 3), F64.fin (Frac.ofInts 1 3)]]
    ∧ testSF.accents = [F64.fin (Frac.ofInt 1), F64.fin (Frac.ofInt 1), F64.fin (Frac.ofInt 1)]
    ∧ testSF.heterogeneities =
        [F64.fin (Frac.ofInts 1 10), F64.fin (Frac.ofInts 1 10), F64.fin (Frac.ofInts 1 10)]
    ∧ testSF.statistics = [F64.fin (Frac.ofInt 0), F64.fin (Frac.ofInt 0), F64.fin (Frac.ofInt 0)]
    ∧ (testSF.populate_choices).map (fun s => s.choices) = some ['a', 'b', 'b'] := by
  decide

/-- C2: the scheduling value of option `o` at decision `d` is
`statistics[o] + (accents[d] + heterogeneities[d] * randoms[d][o]) / weights[d][o]`,
and on the concrete scenario of the test, `scheduling_values(0)` is exactly
`[3.03, 3.06, 3.09]` (exact rational equality, hence within `1e-10`). -/
theorem c2_scheduling_value_formula :
    (∀ (T : Type) (sf : Statfeed T) (d o : Nat), o < sf.options.length →
      (sf.scheduling_values d).get? o = some (sf.statistics.getD o F64.nan +
        (sf.accents.getD d F64.nan + sf.heterogeneities.getD d F64.nan *
          (sf.randoms.getD d []).getD o F64.nan) / (sf.weights.getD d []).getD o F64.nan))
    ∧ testSF.scheduling_values 0 =
      [F64.fin (Frac.ofInts 303 100), F64.fin (Frac.ofInts 306 100), F64.fin (Frac.ofInts 309 100)] := by
  constructor
  · intro T sf d o h
    rw [Statfeed.scheduling_values_get? sf h]
    rfl
  · decide

/-- Witness for C2 at the concrete test state, decision 0, option 0. -/
theorem c2_scheduling_value_formula_witness :
    (testSF.scheduling_values 0).get? 0 = some (testSF.statistics.getD 0 F64.nan +
      (testSF.accents.getD 0 F64.nan + testSF.heterogeneities.getD 0 F64.nan *
        (testSF.randoms.getD 0 []).getD 0 F64.nan) / (testSF.weights.getD 0 []).getD 0 F64.nan) :=
  c2_scheduling_value_formula.1 Char testSF 0 0 (by decide)

/-- C10: with the built-in acceptability predicate the position of the first
acceptable option in the sorted list is always `0`, and the loop body passes
that `0` — the sorted-list index, not the chosen option's index in the
original options sequence — to `increment_statistics`, so only
`statistics[0]` ever receives an increment. -/
theorem c10_increment_index_zero {T : Type} (sf : Statfeed T) (dec : Nat) (p : T × F64)
    (rest : List (T × F64))
    (hs : sortPairs (sf.options.zip (sf.scheduling_values dec)) = p :: rest) :
    position (fun el => sf.is_acceptable el dec) (sf.sort_options (sf.scheduling_values dec)) = some 0
    ∧ sf.step dec = some ((({ sf with choices := sf.choices ++ [p.1] }).increment_statistics
        dec 0).normalize_statistics dec) := by
  constructor
  · unfold Statfeed.sort_options
    rw [hs]
    simp [position, Statfeed.is_acceptable]
  · exact Statfeed.step_sorted_cons sf dec p rest hs

/-- Witness for C10 at decision 1 of the concrete run, where the chosen
option is `'b'` (original index 1) yet the position handed to
`increment_statistics` is `0`. -/
theorem c10_increment_index_zero_witness :
    position (fun el => c1s1.is_acceptable el 1) (c1s1.sort_options (c1s1.scheduling_values 1)) =
      some 0 :=
  (c10_increment_index_zero c1s1 1 ('b', F64.fin (Frac.ofInts 43 20))
    [('c', F64.fin (Frac.ofInts 109 50)), ('a', F64.fin (Frac.ofInts 128 25))] (by decide)).1

/-- C1 counterexample: at decision 1 of the concrete test run the chosen
option is `'b'`, whose (unique) index in the original options sequence is 1,
yet `statistics[1]` is not incremented by `accents[1]/weights[1][1]`: it
moves from `-1` to `-2` (normalization only), not to
`-1 + 3 - 1 = 1` as the claim demands. The increment lands on index 0
instead. -/
theorem c1_counterexample :
    testSF.populate_choices = c1AfterDec1.bind (fun s => s.step 2)
    ∧ c1AfterDec0 = some c1s1
    ∧ c1s1.statistics = [F64.fin (Frac.ofInt 2), F64.fin (Frac.ofInt (-1)), F64.fin (Frac.ofInt (-1))]
    ∧ c1AfterDec1.map (fun s => s.choices) = some ['a', 'b']
    ∧ testSF.options.get? 1 = some 'b'
    ∧ testSF.options.Nodup
    ∧ c1AfterDec1.map (fun s => s.statistics) =
        some [F64.fin (Frac.ofInt 4), F64.fin (Frac.ofInt (-2)), F64.fin (Frac.ofInt (-2))]
    ∧ c1AfterDec1.map (fun s => s.statistics.getD 1 F64.nan) ≠
        some (c1s1.statistics.getD 1 F64.nan + c1s1.true_increment 1 1 -
          c1s1.normalization_value 1) := by
  decide

/-- C1 amended: after the choice at decision `d` is determined, the
statistics accumulator at index `i* = 0` — the chosen option's position in
the value-sorted list under the built-in predicate, read as an index into
the statistics/weights arrays — is incremented by `accents[d]/weights[d][i*]`
(the increment then being followed by normalization). -/
theorem c1_amended {T : Type} (sf : Statfeed T) (dec : Nat) (p : T × F64)
    (rest : List (T × F64))
    (hs : sortPairs (sf.options.zip (sf.scheduling_values dec)) = p :: rest)
    (hlen : 0 < sf.statistics.length) :
    sf.step dec = some ((({ sf with choices := sf.choices ++ [p.1] }).increment_statistics
        dec 0).normalize_statistics dec)
    ∧ (sf.increment_statistics dec 0).statistics.get? 0 =
        some (sf.statistics.getD 0 F64.nan +
          sf.accents.getD dec F64.nan / (sf.weights.getD dec []).getD 0 F64.nan) := by
  constructor
  · exact Statfeed.step_sorted_cons sf dec p rest hs
  · unfold Statfeed.increment_statistics Statfeed.true_increment
    simp [List.get?_eq_getElem?, List.getElem?_set_self', hlen]

/-- Witness for C1 amended at decision 0 of the concrete run. -/
theorem c1_amended_witness :
    (Statfeed.step { testSF with choices := [] } 0).map (fun s => s.choices) = some ['a'] := by
  rw [(c1_amended { testSF with choices := [] } 0 ('a', F64.fin (Frac.ofInts 303 100))
    [('b', F64.fin (Frac.ofInts 153 50)), ('c', F64.fin (Frac.ofInts 309 100))]
    (by decide) (by decide)).1]
  decide

/-- C4: after the increment, normalization subtracts
`accents[d] / sum(weights[d][*])` from `statistics[o]` exactly when
`weights[d][o] > 0`, leaves zero-weight options unchanged, and the loop body
applies the increment before the normalization. -/
theorem c4_normalization {T : Type} (sf : Statfeed T) (dec o : Nat) (w : Frac)
    (ho : o < sf.statistics.length) :
    (F64.flt (F64.fin (Frac.ofInt 0)) ((sf.weights.getD dec []).getD o F64.nan) = true →
      (sf.normalize_statistics dec).statistics.get? o =
        some (sf.statistics.getD o F64.nan -
          sf.accents.getD dec F64.nan /
            (sf.weights.getD dec []).foldl (fun a v => a + v) (F64.fin (Frac.ofInt 0))))
    ∧ ((sf.weights.getD dec []).getD o F64.nan = F64.fin w → w.num = 0 →
      (sf.normalize_statistics dec).statistics.get? o = some (sf.statistics.getD o F64.nan))
    ∧ (∀ (p : T × F64) (rest : List (T × F64)),
        sortPairs (sf.options.zip (sf.scheduling_values dec)) = p :: rest →
        sf.step dec = some ((({ sf with choices := sf.choices ++ [p.1] }).increment_statistics
          dec 0).normalize_statistics dec)) := by
  refine ⟨?_, ?_, fun p rest hs => Statfeed.step_sorted_cons sf dec p rest hs⟩
  · intro hw
    unfold Statfeed.normalize_statistics Statfeed.normalization_value
    rw [rangeMap_get? _ ho]
    rw [hw]
    simp
  · intro hw hw0
    unfold Statfeed.normalize_statistics
    rw [rangeMap_get? _ ho]
    rw [hw]
    simp [F64.flt, Frac.blt, hw0, Frac.ofInt]

/-- Witness for C4 at the concrete test state, decision 0, option 0. -/
theorem c4_normalization_witness :
    (testSF.normalize_statistics 0).statistics.get? 0 =
      some (testSF.statistics.getD 0 F64.nan -
        testSF.accents.getD 0 F64.nan /
          (testSF.weights.getD 0 []).foldl (fun a v => a + v) (F64.fin (Frac.ofInt 0))) :=
  (c4_normalization testSF 0 0 (Frac.ofInt 1) (by decide)).1 (by decide)

/-- C6: `populate_choices` is deterministic — two engines agreeing on
options, weights, randoms, heterogeneities, accents, decisions, with zeroed
statistics (and regardless of any previous `choices` content, which is
cleared), produce identical results. -/
theorem c6_determinism {T : Type} (sf1 sf2 : Statfeed T)
    (hopt : sf1.options = sf2.options) (hw : sf1.weights = sf2.weights)
    (hr : sf1.randoms = sf2.randoms) (hh : sf1.heterogeneities = sf2.heterogeneities)
    (ha : sf1.accents = sf2.accents) (hd : sf1.decisions = sf2.decisions)
    (hz1 : sf1.statistics = List.replicate sf1.options.length (F64.fin (Frac.ofInt 0)))
    (hz2 : sf2.statistics = List.replicate sf2.options.length (F64.fin (Frac.ofInt 0))) :
    sf1.populate_choices = sf2.populate_choices := by
  cases sf1 with
  | mk r1 w1 c1 h1 a1 s1 d1 o1 =>
    cases sf2 with
    | mk r2 w2 c2 h2 a2 s2 d2 o2 =>
      simp only at hopt hw hr hh ha hd hz1 hz2
      subst hopt hw hr hh ha hd hz1 hz2
      rfl

/-- Witness for C6: the concrete engine compared with itself. -/
theorem c6_determinism_witness : testSF.populate_choices = testSF.populate_choices :=
  c6_determinism testSF testSF rfl rfl rfl rfl rfl rfl (by decide) (by decide)

/-- C7: for every constructed engine, whenever `populate_choices` returns,
`choices` has exactly `size` entries; for `size = 0` it returns the engine
unchanged (empty choices, untouched statistics). -/
theorem c7_length_invariant {T : Type} (options : List T) (size : Nat)
    (rnds : List (List F64)) :
    ((Statfeed.new options size rnds).populate_choices.map (fun s => s.choices.length) = some size
      ∨ (Statfeed.new options size rnds).populate_choices = none)
    ∧ (Statfeed.new options 0 rnds).populate_choices = some (Statfeed.new options 0 rnds) := by
  constructor
  · cases hres : (Statfeed.new options size rnds).populate_choices with
    | none => exact Or.inr rfl
    | some sf2 =>
      left
      have hres' := hres
      unfold Statfeed.populate_choices at hres'
      have hlen := Statfeed.run_decisions_choices_length _ _ _ hres'
      simp [Statfeed.new] at hlen
      simpa using hlen
  · rfl

/-- C9 counterexample: constructing with an empty options sequence does not
fail and yields a fully-initialized engine (the constructor has no failure
path at all; the Rust `new` returns `Self`, not a `Result`). -/
theorem c9_counterexample :
    Statfeed.new ([] : List Char) 2 [[], []] =
      { randoms := [[], []], weights := [[], []], choices := [],
        heterogeneities := [F64.fin (Frac.ofInts 1 10), F64.fin (Frac.ofInts 1 10)],
        accents := [F64.fin (Frac.ofInt 1), F64.fin (Frac.ofInt 1)],
        statistics := [], decisions := [0, 1], options := [] } := by
  decide

/-- C9 amended: construction never fails; an empty options sequence yields a
fully-initialized engine with empty weight rows and empty statistics, and the
degeneracy only surfaces later — `populate_choices` panics (modelled as
`none`) at the first decision when `size > 0`. -/
theorem c9_amended {T : Type} (size : Nat) (rnds : List (List F64)) :
    (Statfeed.new ([] : List T) size rnds).options = []
    ∧ (Statfeed.new ([] : List T) size rnds).statistics = []
    ∧ (Statfeed.new ([] : List T) size rnds).weights = List.replicate size []
    ∧ (Statfeed.new ([] : List T) size rnds).decisions = List.range size
    ∧ (0 < size → (Statfeed.new ([] : List T) size rnds).populate_choices = none) := by
  refine ⟨rfl, rfl, ?_, rfl, ?_⟩
  · show (List.range size).map _ = _
    simp [Statfeed.new, List.map_const]
  · intro hpos
    unfold Statfeed.populate_choices
    have hdl : (Statfeed.new ([] : List T) size rnds).decisions.length = size := by
      show (List.range size).length = size
      exact List.length_range size
    rw [hdl]
    cases size with
    | zero => exact absurd hpos (by simp)
    | succ k =>
      rw [List.range_succ_eq_map]
      unfold Statfeed.run_decisions
      rw [Statfeed.step_none_of_options_nil _ _ rfl]

/-- Witness for C9 amended at `size = 2`. -/
theorem c9_amended_witness :
    (Statfeed.new ([] : List Char) 2 [[], []]).populate_choices = none :=
  (@c9_amended Char 2 [[], []]).2.2.2.2 (by decide)

/-- An engine with negative heterogeneity (a public, caller-assignable
field), making the perturbed numerator vanish at decision 0, option 0. -/
def c8Base : Statfeed Char :=
  { Statfeed.new ['a'] 1 [[F64.fin (Frac.ofInt 1)]] with
    heterogeneities := [F64.fin (Frac.ofInt (-1))] }

/-- `c8Base` with the (positive) weight cell strictly increased from 1 to 2,
all else identical. -/
def c8Bigger : Statfeed Char := { c8Base with weights := [[F64.fin (Frac.ofInt 2)]] }

/-- C8 counterexample: with `heterogeneities[0] = -1` and
`randoms[0][0] = 1` the perturbed numerator `accents[0] +
heterogeneities[0]*randoms[0][0]` is `0`, so doubling the positive weight
leaves the scheduling value unchanged — no strict decrease. -/
theorem c8_counterexample :
    c8Bigger = { c8Base with weights := [[F64.fin (Frac.ofInt 2)]] }
    ∧ (c8Base.weights.getD 0 []).getD 0 F64.nan = F64.fin (Frac.ofInt 1)
    ∧ (c8Bigger.weights.getD 0 []).getD 0 F64.nan = F64.fin (Frac.ofInt 2)
    ∧ (c8Base.scheduling_values 0).getD 0 F64.nan = F64.fin (Frac.ofInt 0)
    ∧ (c8Bigger.scheduling_values 0).getD 0 F64.nan = F64.fin (Frac.ofInt 0)
    ∧ F64.flt ((c8Bigger.scheduling_values 0).getD 0 F64.nan)
        ((c8Base.scheduling_values 0).getD 0 F64.nan) = false := by
  decide

/-- C8 amended: strictly increasing the positive weight `weights[d][o]` while
holding statistics, accents, heterogeneities, randoms fixed strictly
decreases the scheduling value `value(d, o)`, provided the perturbed
numerator `accents[d] + heterogeneities[d]*randoms[d][o]` is strictly
positive (as it always is for the built-in accent 1 and nonnegative
heterogeneity/randomness) and the statistic of `o` is finite. -/
theorem c8_amended {T : Type} (sf1 sf2 : Statfeed T) (d o : Nat)
    (s acc het r w1 w2 : Frac)
    (ho1 : o < sf1.options.length) (ho2 : o < sf2.options.length)
    (hs1 : sf1.statistics.getD o F64.nan = F64.fin s)
    (hs2 : sf2.statistics.getD o F64.nan = F64.fin s)
    (hacc1 : sf1.accents.getD d F64.nan = F64.fin acc)
    (hacc2 : sf2.accents.getD d F64.nan = F64.fin acc)
    (hhet1 : sf1.heterogeneities.getD d F64.nan = F64.fin het)
    (hhet2 : sf2.heterogeneities.getD d F64.nan = F64.fin het)
    (hr1 : (sf1.randoms.getD d []).getD o F64.nan = F64.fin r)
    (hr2 : (sf2.randoms.getD d []).getD o F64.nan = F64.fin r)
    (hw1 : (sf1.weights.getD d []).getD o F64.nan = F64.fin w1)
    (hw2 : (sf2.weights.getD d []).getD o F64.nan = F64.fin w2)
    (hds : s.den ≠ 0) (hdacc : acc.den ≠ 0) (hdhet : het.den ≠ 0) (hdr : r.den ≠ 0)
    (hdw1 : w1.den ≠ 0) (hdw2 : w2.den ≠ 0)
    (hw1pos : Frac.blt (Frac.ofInt 0) w1 = true)
    (hw12 : Frac.blt w1 w2 = true)
    (hnum : Frac.blt (Frac.ofInt 0) (acc.add (het.mul r)) = true) :
    F64.flt ((sf2.scheduling_values d).getD o F64.nan)
      ((sf1.scheduling_values d).getD o F64.nan) = true := by
  have hv1 : (sf1.scheduling_values d).getD o F64.nan =
      sf1.statistics.getD o F64.nan + sf1.expected_increment d o := by
    unfold Statfeed.scheduling_values
    exact rangeMap_getD _ ho1 _
  have hv2 : (sf2.scheduling_values d).getD o F64.nan =
      sf2.statistics.getD o F64.nan + sf2.expected_increment d o := by
    unfold Statfeed.scheduling_values
    exact rangeMap_getD _ ho2 _
  rw [hv1, hv2]
  unfold Statfeed.expected_increment
  rw [hs1, hs2, hacc1, hacc2, hhet1, hhet2, hr1, hr2, hw1, hw2]
  have h0den : (Frac.ofInt 0).den ≠ 0 := by simp [Frac.ofInt]
  have h0rat : (Frac.ofInt 0).toRat = 0 := by simp [Frac.ofInt, Frac.toRat]
  have hdn : (acc.add (het.mul r)).den ≠ 0 :=
    Frac.den_add_nz _ _ hdacc (Frac.den_mul_nz _ _ hdhet hdr)
  have hw1q : 0 < w1.toRat := by
    have := (Frac.blt_iff _ _ h0den hdw1).mp hw1pos
    rwa [h0rat] at this
  have hw12q : w1.toRat < w2.toRat := (Frac.blt_iff _ _ hdw1 hdw2).mp hw12
  have hw2q : 0 < w2.toRat := lt_trans hw1q hw12q
  have hnq : 0 < (acc.add (het.mul r)).toRat := by
    have := (Frac.blt_iff _ _ h0den hdn).mp hnum
    rwa [h0rat] at this
  have hw1num : w1.num ≠ 0 := ne_of_gt ((Frac.num_pos_iff w1 hdw1).mpr hw1q)
  have hw2num : w2.num ≠ 0 := ne_of_gt ((Frac.num_pos_iff w2 hdw2).mpr hw2q)
  show F64.flt (F64.add (F64.fin s) (F64.div (F64.add (F64.fin acc)
      (F64.mul (F64.fin het) (F64.fin r))) (F64.fin w2)))
    (F64.add (F64.fin s) (F64.div (F64.add (F64.fin acc)
      (F64.mul (F64.fin het) (F64.fin r))) (F64.fin w1))) = true
  simp only [F64.mul, F64.add, F64.div, if_neg hw1num, if_neg hw2num]
  show Frac.blt (s.add ((acc.add (het.mul r)).div w2)) (s.add ((acc.add (het.mul r)).div w1)) = true
  have hden2 : (s.add ((acc.add (het.mul r)).div w2)).den ≠ 0 :=
    Frac.den_add_nz _ _ hds (Frac.den_div_nz _ _ hdn hw2num)
  have hden1 : (s.add ((acc.add (het.mul r)).div w1)).den ≠ 0 :=
    Frac.den_add_nz _ _ hds (Frac.den_div_nz _ _ hdn hw1num)
  rw [Frac.blt_iff _ _ hden2 hden1,
    Frac.toRat_add _ _ hds (Frac.den_div_nz _ _ hdn hw2num),
    Frac.toRat_add _ _ hds (Frac.den_div_nz _ _ hdn hw1num),
    Frac.toRat_div _ _ hdn hw2num, Frac.toRat_div _ _ hdn hw1num]
  have hlt : (acc.add (het.mul r)).toRat / w2.toRat <
      (acc.add (het.mul r)).toRat / w1.toRat :=
    div_lt_div_of_pos_left hnq hw1q hw12q
  linarith

/-- The concrete test engine with the weight cell at decision 0, option 0
raised from `1/3` to `1/2` (all else unchanged). -/
def c8W2 : Statfeed Char :=
  { testSF with weights :=
      [[F64.fin (Frac.ofInts 1 2), F64.fin (Frac.ofInts 1 3), F64.fin (Frac.ofInts 1 3)],
       [F64.fin (Frac.ofInts 1 3), F64.fin (Frac.ofInts 1 3), F64.fin (Frac.ofInts 1 3)],
       [F64.fin (Frac.ofInts 1 3), F64.fin (Frac.ofInts 1 3), F64.fin (Frac.ofInts 1 3)]] }

/-- Witness for C8 amended: raising the weight of option 0 at decision 0 of
the concrete test engine strictly lowers its scheduling value. -/
theorem c8_amended_witness :
    F64.flt ((c8W2.scheduling_values 0).getD 0 F64.nan)
      ((testSF.scheduling_values 0).getD 0 F64.nan) = true :=
  c8_amended testSF c8W2 0 0 (Frac.ofInt 0) (Frac.ofInt 1) (Frac.ofInts 1 10)
    (Frac.ofInts 1 10) (Frac.ofInts 1 3) (Frac.ofInts 1 2)
    (by decide) (by decide) (by decide) (by decide) (by decide) (by decide)
    (by decide) (by decide) (by decide) (by decide) (by decide) (by decide)
    (by decide) (by decide) (by decide) (by decide) (by decide) (by decide)
    (by decide) (by decide) (by decide)

/-- An engine where option `'a'` has zero weight, `'b'` has positive weight,
and the (public) heterogeneity has been set to `-20`, making the zero-weight
option's division produce `-inf` instead of `+inf`. -/
def c5Cex : Statfeed Char :=
  { Statfeed.new ['a', 'b'] 1 [[F64.fin (Frac.ofInt 1), F64.fin (Frac.ofInt 0)]] with
    weights := [[F64.fin (Frac.ofInt 0), F64.fin (Frac.ofInts 1 2)]],
    heterogeneities := [F64.fin (Frac.ofInt (-20))] }

/-- C5 counterexample: with a negative (publicly assignable) heterogeneity,
the zero-weight option's scheduling value is `-inf`, so it sorts first and
IS selected at decision 0 even though the other option has positive weight
and the default acceptability predicate is in effect. -/
theorem c5_counterexample :
    (c5Cex.weights.getD 0 []).getD 0 F64.nan = F64.fin (Frac.ofInt 0)
    ∧ F64.flt (F64.fin (Frac.ofInt 0)) ((c5Cex.weights.getD 0 []).getD 1 F64.nan) = true
    ∧ c5Cex.options.get? 0 = some 'a'
    ∧ c5Cex.populate_choices.map (fun s => s.choices) = some ['a'] := by
  decide

/-- C5 amended: an option `o` with weight 0 at decision `d` is never selected
at decision `d`, provided its perturbed numerator
`accents[d] + heterogeneities[d]*randoms[d][o]` is strictly positive (so the
division by the zero weight yields `+inf`, as it always does for the
built-in accent 1 and nonnegative heterogeneity/randomness), its statistic is
finite, no scheduling value at `d` is NaN or `-inf`, and some scheduling
value at `d` is finite (in particular some other option has positive weight
and a finite value). -/
theorem c5_amended {T : Type} (sf : Statfeed T) (dec o : Nat) (t : T)
    (s acc het r w : Frac) (sf2 : Statfeed T) (c : T)
    (hnd : sf.options.Nodup) (ho : o < sf.options.length)
    (ht : sf.options.get? o = some t)
    (hw : (sf.weights.getD dec []).getD o F64.nan = F64.fin w) (hw0 : w.num = 0)
    (hstat : sf.statistics.getD o F64.nan = F64.fin s)
    (hacc : sf.accents.getD dec F64.nan = F64.fin acc)
    (hhet : sf.heterogeneities.getD dec F64.nan = F64.fin het)
    (hr : (sf.randoms.getD dec []).getD o F64.nan = F64.fin r)
    (hnum : 0 < (acc.add (het.mul r)).num)
    (hall : ∀ v ∈ sf.scheduling_values dec, F64.finOrPosinf v = true)
    (hfin : ∃ v ∈ sf.scheduling_values dec, F64.isFin v = true)
    (hstep : sf.step dec = some sf2) (hc : sf2.choices = sf.choices ++ [c]) :
    c ≠ t := by
  have hlen_vals : (sf.scheduling_values dec).length = sf.options.length :=
    Statfeed.scheduling_values_length sf dec
  have hlen_l : (sf.options.zip (sf.scheduling_values dec)).length = sf.options.length := by
    rw [List.length_zip, hlen_vals]
    exact Nat.min_self _
  have hlpos : 0 < (sf.options.zip (sf.scheduling_values dec)).length := by
    rw [hlen_l]
    exact Nat.lt_of_le_of_lt (Nat.zero_le o) ho
  obtain ⟨p, rest, hps⟩ :
      ∃ p rest, sortPairs (sf.options.zip (sf.scheduling_values dec)) = p :: rest := by
    cases hck : sortPairs (sf.options.zip (sf.scheduling_values dec)) with
    | nil =>
      have := length_sortPairs (sf.options.zip (sf.scheduling_values dec))
      rw [hck] at this
      rw [← this] at hlpos
      simp at hlpos
    | cons a b => exact ⟨a, b, rfl⟩
  rw [Statfeed.step_sorted_cons sf dec p rest hps] at hstep
  have hsf2 : sf2 = (({ sf with choices := sf.choices ++ [p.1] }).increment_statistics
      dec 0).normalize_statistics dec := (Option.some.injEq _ _).mp hstep.symm
  have hch : sf2.choices = sf.choices ++ [p.1] := by
    rw [hsf2]
    rfl
  have hcp : c = p.1 := by
    have h3 : sf.choices ++ [c] = sf.choices ++ [p.1] := by rw [← hc, hch]
    have h4 := List.append_cancel_left h3
    simpa using h4
  have hall' : ∀ z ∈ sf.options.zip (sf.scheduling_values dec),
      F64.finOrPosinf z.2 = true := fun z hz => hall z.2 (List.of_mem_zip hz).2
  have hex' : ∃ z ∈ sf.options.zip (sf.scheduling_values dec), F64.isFin z.2 = true := by
    rcases hfin with ⟨v, hv, hvfin⟩
    rcases List.mem_iff_get?.mp hv with ⟨i, hi⟩
    have hilt : i < sf.options.length := by
      rcases List.get?_eq_some.mp hi with ⟨hlt, -⟩
      rwa [hlen_vals] at hlt
    exact ⟨(sf.options.get ⟨i, hilt⟩, v),
      zip_mem_of_get? (List.get?_eq_get hilt) hi, hvfin⟩
  have hpfin : F64.isFin p.2 = true :=
    sortPairs_head_isFin _ p rest hall' hex' hps
  intro hct
  have hpt : p.1 = t := by rw [← hcp, hct]
  have hpl : p ∈ sf.options.zip (sf.scheduling_values dec) :=
    mem_sortPairs (hps ▸ List.mem_cons_self p rest)
  have hvo : (sf.scheduling_values dec).get? o = some F64.posinf := by
    rw [Statfeed.scheduling_values_get? sf ho]
    unfold Statfeed.expected_increment
    rw [hstat, hacc, hhet, hr, hw]
    show some (F64.add (F64.fin s) (F64.div (F64.add (F64.fin acc)
        (F64.mul (F64.fin het) (F64.fin r))) (F64.fin w))) = some F64.posinf
    simp only [F64.mul, F64.add, F64.div, if_pos hw0, if_pos hnum]
  have hmem : (t, p.2) ∈ sf.options.zip (sf.scheduling_values dec) := by
    rw [← hpt]
    simpa using hpl
  have hsnd : p.2 = F64.posinf := zip_nodup_snd hnd hmem ht hvo
  rw [hsnd] at hpfin
  simp [F64.isFin] at hpfin

/-- An engine where option `'a'` has zero weight at decision 0 and `'b'` a
positive one, with the default accent, heterogeneity and in-range randoms. -/
def c5W : Statfeed Char :=
  { Statfeed.new ['a', 'b'] 1 [[F64.fin (Frac.ofInts 1 2), F64.fin (Frac.ofInts 1 2)]] with
    weights := [[F64.fin (Frac.ofInt 0), F64.fin (Frac.ofInts 1 2)]] }

/-- The result of the single decision step on `c5W`: `'b'` is chosen; the
increment at sorted-index 0 divides by the zero weight, driving
`statistics[0]` to `+inf`. -/
def c5Res : Statfeed Char :=
  { c5W with
    choices := ['b'],
    statistics := [F64.posinf, F64.fin (Frac.ofInt (-2))] }

/-- Witness for C5 amended on `c5W`: the selected option is `'b'`, not the
zero-weight `'a'`. -/
theorem c5_amended_witness :
    c5W.step 0 = some c5Res ∧ ('b' : Char) ≠ 'a' :=
  ⟨by decide,
    c5_amended c5W 0 0 'a' (Frac.ofInt 0) (Frac.ofInt 1) (Frac.ofInts 1 10)
      (Frac.ofInts 1 2) (Frac.ofInt 0) c5Res 'b'
      (by decide) (by decide) (by decide) (by decide) (by decide) (by decide)
      (by decide) (by decide) (by decide) (by decide) (by decide) (by decide)
      (by decide) (by decide)⟩

/-- Witness for C7 on the concrete test configuration. -/
theorem c7_length_invariant_witness :
    (Statfeed.new ['a', 'b', 'c'] 3 testRandoms).populate_choices.map
      (fun s => s.choices.length) = some 3 := by
  rcases (c7_length_invariant ['a', 'b', 'c'] 3 testRandoms).1 with h | h
  · exact h
  · exact absurd h (by decide)
